import Mathlib

/-!
Verification of an in-memory TTL cache (source: `src/ttl-cache.ts`).

The source is a class `TTLCache<T>` holding a `Map<string, CacheEntry<T>>`
and a fixed `ttl`.  `add` validates its arguments, is a no-op on a present
key, and otherwise stores `{ value, ttl: this.ttl }` and schedules
`setTimeout(() => this.remove(key), this.ttl)` via `_discard`.  `get`
returns the stored value or `null`; `update` replaces only the value,
keeping the stored `ttl` and scheduling nothing; `remove` deletes the key
if present.  Thrown `Error`s are embedded as `Except.error` carrying the
message; the JavaScript `Map` is embedded as an association list; the
timer facility is embedded explicitly: the state carries the multiset of
pending timeouts as a list of `(key, fireTime)` pairs together with a
clock `now`, a timer may fire only once `now` has reached its fire time,
and firing runs the callback `remove key` and consumes the timeout.

Values of type `T` are tested for JavaScript falsiness by the source
(`if (!value) throw ...`); the embedding abstracts that test as a
parameter `falsy : T → Bool`.  A key (a string) is falsy exactly when it
is empty.
-/

/-- The source interface `CacheEntry<T> { value: T; ttl: number }`.
`insertedAt` is a ghost timestamp, not a field of the source record: the
clock value at which this entry was created by `add`.  It is carried along
unchanged by `update` (which creates the record `{ value, ttl: current.ttl }`
for an entry that already exists) and is used only to state timing
invariants; no operation of the code reads it. -/
structure CacheEntry (T : Type) where
  value : T
  ttl : Nat
  insertedAt : Nat
deriving DecidableEq

/-- State of a `TTLCache<T>` object together with its scheduling
environment: the fields `ttl` and `cache` are the fields of the source
class; `timers` is the list of pending `setTimeout` handles created by
`_discard` (key and absolute fire time), and `now` is the current clock. -/
structure TTLCache (T : Type) where
  ttl : Nat
  cache : List (String × CacheEntry T)
  timers : List (String × Nat)
  now : Nat
deriving DecidableEq

/-- `Map.prototype.get`. -/
def mapGet {T : Type} (m : List (String × CacheEntry T)) (k : String) :
    Option (CacheEntry T) :=
  match m with
  | [] => none
  | (k0, e0) :: rest => if k0 = k then some e0 else mapGet rest k

/-- `Map.prototype.has`. -/
def mapHas {T : Type} (m : List (String × CacheEntry T)) (k : String) : Bool :=
  (mapGet m k).isSome

/-- `Map.prototype.set`: replace the binding of `k` if present, otherwise
append a new binding. -/
def mapSet {T : Type} (m : List (String × CacheEntry T)) (k : String)
    (e : CacheEntry T) : List (String × CacheEntry T) :=
  match m with
  | [] => [(k, e)]
  | (k0, e0) :: rest =>
    if k0 = k then (k, e) :: rest else (k0, e0) :: mapSet rest k e

/-- `Map.prototype.delete` (keys of a JavaScript `Map` are unique, so
removing every binding of `k` agrees with it). -/
def mapDelete {T : Type} (m : List (String × CacheEntry T)) (k : String) :
    List (String × CacheEntry T) :=
  match m with
  | [] => []
  | (k0, e0) :: rest =>
    if k0 = k then mapDelete rest k else (k0, e0) :: mapDelete rest k

/-- Remove one pending timeout `(k, t)` from the list of pending timers
(the one consumed when it fires). -/
def eraseTimer (ts : List (String × Nat)) (k : String) (t : Nat) :
    List (String × Nat) :=
  match ts with
  | [] => []
  | (k0, t0) :: rest =>
    if k0 = k ∧ t0 = t then rest else (k0, t0) :: eraseTimer rest k t

namespace TTLCache

/-- `constructor(ttl)`: empty map, configured ttl; no timers pending, clock
at zero. -/
def init {T : Type} (ttl : Nat) : TTLCache T :=
  { ttl := ttl, cache := [], timers := [], now := 0 }

/-- `private _discard(key)`: `setTimeout(() => this.remove(key), this.ttl)` —
schedules a pending timeout for `key` that may fire once `ttl` has elapsed
from now.  (The source returns the timeout handle; `add` discards it.) -/
def _discard {T : Type} (s : TTLCache T) (k : String) : TTLCache T :=
  { s with timers := s.timers ++ [(k, s.now + s.ttl)] }

/-- `add(key, value)`: throws on falsy key or value; returns `true` doing
nothing if `key` is present; otherwise stores `{ value, ttl: this.ttl }`,
schedules the discard and returns `true`. -/
def add {T : Type} (falsy : T → Bool) (s : TTLCache T) (k : String) (v : T) :
    Except String (TTLCache T × Bool) :=
  if k = "" then .error "A key is required!"
  else if falsy v then .error "A value is required!"
  else if mapHas s.cache k then .ok (s, true)
  else
    .ok (TTLCache._discard
      { s with cache := mapSet s.cache k ⟨v, s.ttl, s.now⟩ } k, true)

/-- `get(key)`: throws on falsy key; returns `null` (`none`) when the key is
absent, else the stored value.  The method writes nothing, so the returned
state is the input state. -/
def get {T : Type} (s : TTLCache T) (k : String) :
    Except String (TTLCache T × Option T) :=
  if k = "" then .error "A key is required"
  else
    match mapGet s.cache k with
    | none => .ok (s, none)
    | some e => .ok (s, some e.value)

/-- `_get(key)`: as `get` but returns the raw entry record. -/
def _get {T : Type} (s : TTLCache T) (k : String) :
    Except String (TTLCache T × Option (CacheEntry T)) :=
  if k = "" then .error "A key is required"
  else
    match mapGet s.cache k with
    | none => .ok (s, none)
    | some e => .ok (s, some e)

/-- `update(key, value)`: throws on falsy key or value; returns `false` when
`key` is absent (looked up through `_get`, whose key check cannot fire
again); otherwise stores `{ value, ttl: current.ttl }` and returns `true`.
No timer is scheduled or cancelled. -/
def update {T : Type} (falsy : T → Bool) (s : TTLCache T) (k : String)
    (v : T) : Except String (TTLCache T × Bool) :=
  if k = "" then .error "A key is required!"
  else if falsy v then .error "A value is required!"
  else
    match mapGet s.cache k with
    | none => .ok (s, false)
    | some current =>
      .ok ({ s with cache := mapSet s.cache k ⟨v, current.ttl, current.insertedAt⟩ },
        true)

/-- `remove(key)`: throws on falsy key; returns `false` when `key` is
absent; otherwise `this.cache.delete(key)`, which removes the binding and
returns `true` for a present key. -/
def remove {T : Type} (s : TTLCache T) (k : String) :
    Except String (TTLCache T × Bool) :=
  if k = "" then .error "A key is required!"
  else if !mapHas s.cache k then .ok (s, false)
  else .ok ({ s with cache := mapDelete s.cache k }, true)

end TTLCache

/-- Firing the pending timeout `(k, t)`: the timeout is consumed and its
callback `() => this.remove(key)` runs.  Should `remove` throw (possible
only for an empty key, which no reachable timer carries), the exception
escapes the callback and the store is left as it was. -/
def fireTimer {T : Type} (s : TTLCache T) (k : String) (t : Nat) : TTLCache T :=
  let s1 : TTLCache T := { s with timers := eraseTimer s.timers k t }
  match TTLCache.remove s1 k with
  | .ok (s2, _) => s2
  | .error _ => s1

/-- One step of the system: a successful public method call on the store, a
pending timeout firing (only at or after its fire time), or time passing. -/
inductive Step {T : Type} (falsy : T → Bool) : TTLCache T → TTLCache T → Prop where
  | addOp (s s' : TTLCache T) (k : String) (v : T) (b : Bool) :
      TTLCache.add falsy s k v = .ok (s', b) → Step falsy s s'
  | updateOp (s s' : TTLCache T) (k : String) (v : T) (b : Bool) :
      TTLCache.update falsy s k v = .ok (s', b) → Step falsy s s'
  | removeOp (s s' : TTLCache T) (k : String) (b : Bool) :
      TTLCache.remove s k = .ok (s', b) → Step falsy s s'
  | fire (s : TTLCache T) (k : String) (t : Nat) :
      (k, t) ∈ s.timers → t ≤ s.now → Step falsy s (fireTimer s k t)
  | advance (s : TTLCache T) (d : Nat) :
      Step falsy s { s with now := s.now + d }

/-- States reachable from a freshly constructed cache. -/
def Reachable {T : Type} (falsy : T → Bool) (ttl0 : Nat) (s : TTLCache T) : Prop :=
  Relation.ReflTransGen (Step falsy) (TTLCache.init ttl0) s

/-- Falsiness of a JavaScript number: `0` (the embedding of values used by
the concrete witnesses). -/
def natFalsy (n : Nat) : Bool := n == 0

/-! ### Association-list lemmas -/

theorem mapGet_set_self {T : Type} (m : List (String × CacheEntry T))
    (k : String) (e : CacheEntry T) : mapGet (mapSet m k e) k = some e := by
  induction m with
  | nil => simp [mapSet, mapGet]
  | cons p rest ih =>
    obtain ⟨k0, e0⟩ := p
    by_cases h : k0 = k <;> simp [mapSet, mapGet, h, ih]

theorem mapGet_set_ne {T : Type} (m : List (String × CacheEntry T))
    (k k' : String) (e : CacheEntry T) (h : k' ≠ k) :
    mapGet (mapSet m k e) k' = mapGet m k' := by
  induction m with
  | nil => simp [mapSet, mapGet, Ne.symm h]
  | cons p rest ih =>
    obtain ⟨k0, e0⟩ := p
    by_cases h0 : k0 = k
    · subst h0
      simp [mapSet, mapGet, Ne.symm h]
    · simp [mapSet, mapGet, h0, ih]

theorem mapGet_delete_self {T : Type} (m : List (String × CacheEntry T))
    (k : String) : mapGet (mapDelete m k) k = none := by
  induction m with
  | nil => simp [mapDelete, mapGet]
  | cons p rest ih =>
    obtain ⟨k0, e0⟩ := p
    by_cases h : k0 = k <;> simp [mapDelete, mapGet, h, ih]

theorem mapGet_delete_ne {T : Type} (m : List (String × CacheEntry T))
    (k k' : String) (h : k' ≠ k) :
    mapGet (mapDelete m k) k' = mapGet m k' := by
  induction m with
  | nil => simp [mapDelete]
  | cons p rest ih =>
    obtain ⟨k0, e0⟩ := p
    by_cases h0 : k0 = k
    · subst h0
      simp [mapDelete, mapGet, Ne.symm h, ih]
    · simp [mapDelete, mapGet, h0, ih]

theorem mapHas_iff {T : Type} (m : List (String × CacheEntry T)) (k : String) :
    mapHas m k = true ↔ ∃ e, mapGet m k = some e := by
  simp [mapHas, Option.isSome_iff_exists]

theorem mapHas_false_iff {T : Type} (m : List (String × CacheEntry T))
    (k : String) : mapHas m k = false ↔ mapGet m k = none := by
  cases h : mapGet m k <;> simp [mapHas, h]

theorem mem_eraseTimer (ts : List (String × Nat)) (k k' : String)
    (t t' : Nat) (h : (k', t') ∈ ts) (hne : k' ≠ k) :
    (k', t') ∈ eraseTimer ts k t := by
  induction ts with
  | nil => simp at h
  | cons p rest ih =>
    obtain ⟨k0, t0⟩ := p
    rcases List.mem_cons.mp h with h1 | h1
    · cases h1
      have hc : ¬(k' = k ∧ t' = t) := fun hc => hne hc.1
      simp [eraseTimer, hc]
    · by_cases h0 : k0 = k ∧ t0 = t
      · simp [eraseTimer, h0, h1]
      · simp [eraseTimer, h0, List.mem_cons, ih h1]

/-! ### The reachable-state invariant -/

/-- Facts holding in every reachable state: the configured ttl never
changes, and every stored entry has a non-empty key, a non-falsy value, the
construction-time ttl recorded in its `ttl` field, and a pending timeout
scheduled at its insertion for `ttl` later. -/
def CacheInv {T : Type} (falsy : T → Bool) (ttl0 : Nat) (s : TTLCache T) : Prop :=
  s.ttl = ttl0 ∧
  ∀ k e, mapGet s.cache k = some e →
    k ≠ "" ∧ falsy e.value = false ∧ e.ttl = ttl0 ∧
      (k, e.insertedAt + ttl0) ∈ s.timers

theorem cacheInv_init {T : Type} (falsy : T → Bool) (ttl0 : Nat) :
    CacheInv falsy ttl0 (TTLCache.init (T := T) ttl0) := by
  constructor
  · rfl
  · intro k e h
    simp [TTLCache.init, mapGet] at h

theorem cacheInv_step {T : Type} (falsy : T → Bool) (ttl0 : Nat)
    (s s' : TTLCache T) (hInv : CacheInv falsy ttl0 s)
    (hstep : Step falsy s s') : CacheInv falsy ttl0 s' := by
  obtain ⟨httl, hent⟩ := hInv
  cases hstep with
  | addOp _ k v b h =>
    simp only [TTLCache.add] at h
    split at h
    · simp at h
    next hk =>
      split at h
      · simp at h
      next hv =>
        split at h
        next hhas =>
          rw [Except.ok.injEq, Prod.mk.injEq] at h
          obtain ⟨rfl, rfl⟩ := h
          exact ⟨httl, hent⟩
        next hhas =>
          rw [Except.ok.injEq, Prod.mk.injEq] at h
          obtain ⟨rfl, rfl⟩ := h
          refine ⟨httl, ?_⟩
          intro k' e' h'
          simp only [TTLCache._discard] at h'
          by_cases hk' : k' = k
          · subst hk'
            rw [mapGet_set_self] at h'
            injection h' with h''
            subst h''
            refine ⟨hk, by simpa using hv, httl, ?_⟩
            simp [TTLCache._discard, httl]
          · rw [mapGet_set_ne _ _ _ _ hk'] at h'
            obtain ⟨h1, h2, h3, h4⟩ := hent k' e' h'
            refine ⟨h1, h2, h3, ?_⟩
            simp only [TTLCache._discard]
            exact List.mem_append_left _ h4
  | updateOp _ k v b h =>
    simp only [TTLCache.update] at h
    split at h
    · simp at h
    next hk =>
      split at h
      · simp at h
      next hv =>
        split at h
        next heq =>
          rw [Except.ok.injEq, Prod.mk.injEq] at h
          obtain ⟨rfl, rfl⟩ := h
          exact ⟨httl, hent⟩
        next current heq =>
          rw [Except.ok.injEq, Prod.mk.injEq] at h
          obtain ⟨rfl, rfl⟩ := h
          obtain ⟨hck, hcv, hct, hctm⟩ := hent k current heq
          refine ⟨httl, ?_⟩
          intro k' e' h'
          simp only at h'
          by_cases hk' : k' = k
          · subst hk'
            rw [mapGet_set_self] at h'
            injection h' with h''
            subst h''
            exact ⟨hck, by simpa using hv, hct, hctm⟩
          · rw [mapGet_set_ne _ _ _ _ hk'] at h'
            exact hent k' e' h'
  | removeOp _ k b h =>
    simp only [TTLCache.remove] at h
    split at h
    · simp at h
    next hk =>
      split at h
      next hhas =>
        rw [Except.ok.injEq, Prod.mk.injEq] at h
        obtain ⟨rfl, rfl⟩ := h
        exact ⟨httl, hent⟩
      next hhas =>
        rw [Except.ok.injEq, Prod.mk.injEq] at h
        obtain ⟨rfl, rfl⟩ := h
        refine ⟨httl, ?_⟩
        intro k' e' h'
        simp only at h'
        by_cases hk' : k' = k
        · subst hk'
          rw [mapGet_delete_self] at h'
          simp at h'
        · rw [mapGet_delete_ne _ _ _ hk'] at h'
          exact hent k' e' h'
  | fire k t hmem hle =>
    by_cases hk : k = ""
    · have hft : fireTimer s k t = { s with timers := eraseTimer s.timers k t } := by
        simp [fireTimer, TTLCache.remove, hk]
      rw [hft]
      refine ⟨httl, ?_⟩
      intro k' e' h'
      simp only at h'
      obtain ⟨h1, h2, h3, h4⟩ := hent k' e' h'
      exact ⟨h1, h2, h3, mem_eraseTimer _ _ _ _ _ h4 (hk ▸ h1)⟩
    · by_cases hhas : mapHas s.cache k
      · have hft : fireTimer s k t =
            { s with cache := mapDelete s.cache k,
                     timers := eraseTimer s.timers k t } := by
          simp [fireTimer, TTLCache.remove, hk, hhas]
        rw [hft]
        refine ⟨httl, ?_⟩
        intro k' e' h'
        simp only at h'
        by_cases hk' : k' = k
        · subst hk'
          rw [mapGet_delete_self] at h'
          simp at h'
        · rw [mapGet_delete_ne _ _ _ hk'] at h'
          obtain ⟨h1, h2, h3, h4⟩ := hent k' e' h'
          exact ⟨h1, h2, h3, mem_eraseTimer _ _ _ _ _ h4 hk'⟩
      · have hft : fireTimer s k t = { s with timers := eraseTimer s.timers k t } := by
          simp [fireTimer, TTLCache.remove, hk, hhas]
        rw [hft]
        refine ⟨httl, ?_⟩
        intro k' e' h'
        simp only at h'
        by_cases hk' : k' = k
        · subst hk'
          rw [(mapHas_false_iff _ _).mp (by simpa using hhas)] at h'
          simp at h'
        · obtain ⟨h1, h2, h3, h4⟩ := hent k' e' h'
          exact ⟨h1, h2, h3, mem_eraseTimer _ _ _ _ _ h4 hk'⟩
  | advance d =>
    exact ⟨httl, hent⟩

theorem cacheInv_reachable {T : Type} (falsy : T → Bool) (ttl0 : Nat)
    (s : TTLCache T) (h : Reachable falsy ttl0 s) : CacheInv falsy ttl0 s := by
  induction h with
  | refl => exact cacheInv_init falsy ttl0
  | tail hr hstep ih => exact cacheInv_step falsy ttl0 _ _ ih hstep

/-! ### Concrete states used by the closed instances -/

/-- The store after `add "a" 1` on a freshly constructed cache with ttl 10. -/
def sOne : TTLCache Nat :=
  { ttl := 10, cache := [("a", ⟨1, 10, 0⟩)], timers := [("a", 10)], now := 0 }

theorem reachable_sOne : Reachable natFalsy 10 sOne :=
  Relation.ReflTransGen.single (Step.addOp _ _ "a" 1 true (by rfl))

/-! ### The claims -/

/-- C1: for every non-empty key and non-falsy value, on a store where the
key is absent, `add key value` returns `true` and an immediate `get key`
(no timer having fired in between) returns that value. -/
theorem c1_add_then_get {T : Type} (falsy : T → Bool) (s : TTLCache T)
    (k : String) (v : T) (hk : k ≠ "") (hv : falsy v = false)
    (habs : mapHas s.cache k = false) :
    ∃ s1 : TTLCache T, TTLCache.add falsy s k v = .ok (s1, true) ∧
      TTLCache.get s1 k = .ok (s1, some v) := by
  refine ⟨TTLCache._discard { s with cache := mapSet s.cache k ⟨v, s.ttl, s.now⟩ } k,
    ?_, ?_⟩
  · simp [TTLCache.add, hk, hv, habs]
  · simp [TTLCache.get, TTLCache._discard, hk, mapGet_set_self]

/-- Closed instance of `c1_add_then_get`. -/
theorem c1_add_then_get_witness :
    ("a" : String) ≠ "" ∧ natFalsy 1 = false ∧
      mapHas (TTLCache.init (T := Nat) 10).cache "a" = false ∧
      ∃ s1, TTLCache.add natFalsy (TTLCache.init 10) "a" 1 = .ok (s1, true) ∧
        TTLCache.get s1 "a" = .ok (s1, some 1) :=
  ⟨by decide, by rfl, by rfl,
    c1_add_then_get natFalsy (TTLCache.init 10) "a" 1 (by decide) (by rfl) (by rfl)⟩

/-- C3: `add` on a key that is already present returns `true` and leaves the
whole store state (value, ttl metadata, pending timers, clock) unchanged,
so a later `get` still yields the originally stored value. -/
theorem c3_add_present_noop {T : Type} (falsy : T → Bool) (s : TTLCache T)
    (k : String) (v : T) (hk : k ≠ "") (hv : falsy v = false)
    (hpres : mapHas s.cache k = true) :
    TTLCache.add falsy s k v = .ok (s, true) ∧
    ∀ e, mapGet s.cache k = some e → TTLCache.get s k = .ok (s, some e.value) := by
  constructor
  · simp [TTLCache.add, hk, hv, hpres]
  · intro e he
    simp [TTLCache.get, hk, he]

/-- Closed instance of `c3_add_present_noop`: re-adding `"a"` with value 2
keeps the state `sOne` (and its single timer) intact and `get` still
returns 1. -/
theorem c3_add_present_noop_witness :
    TTLCache.add natFalsy sOne "a" 2 = .ok (sOne, true) ∧
    TTLCache.get sOne "a" = .ok (sOne, some 1) :=
  ⟨(c3_add_present_noop natFalsy sOne "a" 2 (by decide) (by rfl) (by rfl)).1,
   (c3_add_present_noop natFalsy sOne "a" 2 (by decide) (by rfl) (by rfl)).2
     ⟨1, 10, 0⟩ (by rfl)⟩

/-- C4: with a non-empty key and non-falsy value, `update` returns `false`
and leaves the store untouched when the key is absent; when the key is
present it returns `true` and the new state differs from the old only in
that key's binding, whose entry keeps its `ttl` metadata (and ghost
insertion time) with just the value replaced — in particular `timers` is
unchanged, so no removal is scheduled or cancelled. -/
theorem c4_update_semantics {T : Type} (falsy : T → Bool) (s : TTLCache T)
    (k : String) (v : T) (hk : k ≠ "") (hv : falsy v = false) :
    (mapGet s.cache k = none → TTLCache.update falsy s k v = .ok (s, false)) ∧
    (∀ e, mapGet s.cache k = some e →
      TTLCache.update falsy s k v =
        .ok ({ s with cache := mapSet s.cache k ⟨v, e.ttl, e.insertedAt⟩ }, true) ∧
      mapGet (mapSet s.cache k ⟨v, e.ttl, e.insertedAt⟩) k =
        some ⟨v, e.ttl, e.insertedAt⟩ ∧
      ∀ k2, k2 ≠ k →
        mapGet (mapSet s.cache k ⟨v, e.ttl, e.insertedAt⟩) k2 = mapGet s.cache k2) := by
  constructor
  · intro hnone
    simp [TTLCache.update, hk, hv, hnone]
  · intro e he
    refine ⟨by simp [TTLCache.update, hk, hv, he], mapGet_set_self .., ?_⟩
    intro k2 hk2
    exact mapGet_set_ne _ _ _ _ hk2

/-- Closed instance of `c4_update_semantics`: updating the absent key `"b"`
is a no-op returning `false`; updating `"a"` on `sOne` yields the state
with only the value changed (same ttl field, same timers). -/
theorem c4_update_semantics_witness :
    TTLCache.update natFalsy sOne "b" 5 = .ok (sOne, false) ∧
    TTLCache.update natFalsy sOne "a" 5 =
      .ok ({ ttl := 10, cache := [("a", ⟨5, 10, 0⟩)],
             timers := [("a", 10)], now := 0 }, true) :=
  ⟨(c4_update_semantics natFalsy sOne "b" 5 (by decide) (by rfl)).1 (by rfl),
   ((c4_update_semantics natFalsy sOne "a" 5 (by decide) (by rfl)).2
     ⟨1, 10, 0⟩ (by rfl)).1⟩

/-- C5: after any successful `add` of a non-empty key, `remove` returns
`true`, a following `get` reports absence, and a second `remove` returns
`false` leaving the store unchanged. -/
theorem c5_remove_semantics {T : Type} (falsy : T → Bool) (s s1 : TTLCache T)
    (k : String) (v : T) (b : Bool) (hk : k ≠ "")
    (hadd : TTLCache.add falsy s k v = .ok (s1, b)) :
    ∃ s2, TTLCache.remove s1 k = .ok (s2, true) ∧
      TTLCache.get s2 k = .ok (s2, none) ∧
      TTLCache.remove s2 k = .ok (s2, false) := by
  have hhas : mapHas s1.cache k = true := by
    simp only [TTLCache.add] at hadd
    split at hadd
    · simp at hadd
    · split at hadd
      · simp at hadd
      · split at hadd
        next hpres =>
          rw [Except.ok.injEq, Prod.mk.injEq] at hadd
          obtain ⟨rfl, rfl⟩ := hadd
          exact hpres
        next hpres =>
          rw [Except.ok.injEq, Prod.mk.injEq] at hadd
          obtain ⟨rfl, rfl⟩ := hadd
          simp [TTLCache._discard, mapHas, mapGet_set_self]
  refine ⟨{ s1 with cache := mapDelete s1.cache k }, ?_, ?_, ?_⟩
  · simp [TTLCache.remove, hk, hhas]
  · simp [TTLCache.get, hk, mapGet_delete_self]
  · simp [TTLCache.remove, hk, mapHas, mapGet_delete_self]

/-- Closed instance of `c5_remove_semantics` after `add "a" 1` on a fresh
store. -/
theorem c5_remove_semantics_witness :
    ("a" : String) ≠ "" ∧
    TTLCache.add natFalsy (TTLCache.init 10) "a" 1 = .ok (sOne, true) ∧
    ∃ s2, TTLCache.remove sOne "a" = .ok (s2, true) ∧
      TTLCache.get s2 "a" = .ok (s2, none) ∧
      TTLCache.remove s2 "a" = .ok (s2, false) :=
  ⟨by decide, by rfl,
    c5_remove_semantics natFalsy (TTLCache.init 10) sOne "a" 1 true
      (by decide) (by rfl)⟩

/-- C6: `add`, `get`, `update`, `remove` throw exactly when the key is the
empty (falsy) string, and `add`/`update` additionally exactly when the
value is falsy; misses are reported through the return value (`none` /
`false`) with the store untouched, never through an error. -/
theorem c6_error_conditions {T : Type} (falsy : T → Bool) (s : TTLCache T)
    (k : String) (v : T) :
    ((∃ msg, TTLCache.add falsy s k v = .error msg) ↔ (k = "" ∨ falsy v = true)) ∧
    ((∃ msg, TTLCache.update falsy s k v = .error msg) ↔ (k = "" ∨ falsy v = true)) ∧
    ((∃ msg, TTLCache.get s k = .error msg) ↔ k = "") ∧
    ((∃ msg, TTLCache.remove s k = .error msg) ↔ k = "") ∧
    (k ≠ "" → mapGet s.cache k = none →
      TTLCache.get s k = .ok (s, none) ∧
      TTLCache.remove s k = .ok (s, false) ∧
      (falsy v = false → TTLCache.update falsy s k v = .ok (s, false))) := by
  refine ⟨?_, ?_, ?_, ?_, ?_⟩
  · by_cases hk : k = ""
    · simp [TTLCache.add, hk]
    · by_cases hv : falsy v = true
      · simp [TTLCache.add, hk, hv]
      · cases hhas : mapHas s.cache k <;> simp [TTLCache.add, hk, hv, hhas]
  · by_cases hk : k = ""
    · simp [TTLCache.update, hk]
    · by_cases hv : falsy v = true
      · simp [TTLCache.update, hk, hv]
      · cases hmg : mapGet s.cache k <;> simp [TTLCache.update, hk, hv, hmg]
  · by_cases hk : k = ""
    · simp [TTLCache.get, hk]
    · cases hmg : mapGet s.cache k <;> simp [TTLCache.get, hk, hmg]
  · by_cases hk : k = ""
    · simp [TTLCache.remove, hk]
    · cases hhas : mapHas s.cache k <;> simp [TTLCache.remove, hk, hhas]
  · intro hk hnone
    refine ⟨by simp [TTLCache.get, hk, hnone], ?_, ?_⟩
    · simp [TTLCache.remove, hk, (mapHas_false_iff _ _).mpr hnone]
    · intro hv
      simp [TTLCache.update, hk, hv, hnone]

/-- Closed instance of `c6_error_conditions`: the empty key makes `add`
throw, and `remove` of an absent key on a fresh store is a `false` return,
not an error. -/
theorem c6_error_conditions_witness :
    (∃ msg, TTLCache.add natFalsy (TTLCache.init 10) "" 1 = .error msg) ∧
    TTLCache.remove (TTLCache.init (T := Nat) 10) "a" =
      .ok (TTLCache.init 10, false) :=
  ⟨(c6_error_conditions natFalsy (TTLCache.init 10) "" 1).1.mpr (Or.inl rfl),
   ((c6_error_conditions natFalsy (TTLCache.init 10) "a" 1).2.2.2.2
     (by decide) (by rfl)).2.1⟩

/-- The expiration transition as the specification words it: "deletes `key`
from the store if present, ignores absence". -/
def expireSpec {T : Type} (m : List (String × CacheEntry T)) (k : String) :
    List (String × CacheEntry T) :=
  if mapHas m k then mapDelete m k else m

/-- C7: firing the scheduled removal for `(k, t)` performs on the map
exactly the `remove k` transition — delete if present, no-op if absent —
with no error channel, and without inspecting which entry currently
occupies `k` (the resulting map depends only on `k`, as the common
right-hand side `expireSpec` shows). -/
theorem c7_fire_refines_remove {T : Type} (s : TTLCache T) (k : String)
    (t : Nat) (hk : k ≠ "") :
    (fireTimer s k t).cache = expireSpec s.cache k ∧
    (∃ b, TTLCache.remove s k = .ok ({ s with cache := expireSpec s.cache k }, b)) := by
  by_cases hhas : mapHas s.cache k
  · exact ⟨by simp [fireTimer, TTLCache.remove, hk, hhas, expireSpec],
      ⟨true, by simp [TTLCache.remove, hk, hhas, expireSpec]⟩⟩
  · exact ⟨by simp [fireTimer, TTLCache.remove, hk, hhas, expireSpec],
      ⟨false, by simp [TTLCache.remove, hk, hhas, expireSpec]⟩⟩

/-- Closed instance of `c7_fire_refines_remove` on `sOne`. -/
theorem c7_fire_refines_remove_witness :
    (fireTimer sOne "a" 10).cache = expireSpec sOne.cache "a" ∧
    (∃ b, TTLCache.remove sOne "a" =
      .ok ({ sOne with cache := expireSpec sOne.cache "a" }, b)) :=
  c7_fire_refines_remove sOne "a" 10 (by decide)

/-- C9: `get` never changes the store: a successful `get` hands back the
input state itself, and repeating the same `get` gives the same result. -/
theorem c9_get_no_side_effect {T : Type} (s s' : TTLCache T) (k : String)
    (r : Option T) (h : TTLCache.get s k = .ok (s', r)) :
    s' = s ∧ TTLCache.get s' k = .ok (s', r) := by
  simp only [TTLCache.get] at h
  split at h
  · simp at h
  next hk =>
    split at h
    next hmg =>
      rw [Except.ok.injEq, Prod.mk.injEq] at h
      obtain ⟨rfl, rfl⟩ := h
      exact ⟨rfl, by simp [TTLCache.get, hk, hmg]⟩
    next e hmg =>
      rw [Except.ok.injEq, Prod.mk.injEq] at h
      obtain ⟨rfl, rfl⟩ := h
      exact ⟨rfl, by simp [TTLCache.get, hk, hmg]⟩

/-- Closed instance of `c9_get_no_side_effect` on `sOne`. -/
theorem c9_get_no_side_effect_witness :
    sOne = sOne ∧ TTLCache.get sOne "a" = .ok (sOne, some 1) :=
  c9_get_no_side_effect sOne sOne "a" (some 1) (by rfl)

/-- C10: in every reachable state every stored value is non-falsy and every
stored entry's `ttl` field equals the construction-time ttl; `get` on a
valid key reports `none` exactly when the key is absent, so a `none`
(`null`) result is never a stored value. -/
theorem c10_stored_values {T : Type} (falsy : T → Bool) (ttl0 : Nat)
    (s : TTLCache T) (h : Reachable falsy ttl0 s) :
    (∀ k e, mapGet s.cache k = some e → falsy e.value = false ∧ e.ttl = ttl0) ∧
    (∀ k, k ≠ "" → (TTLCache.get s k = .ok (s, none) ↔ mapGet s.cache k = none)) := by
  obtain ⟨httl, hent⟩ := cacheInv_reachable falsy ttl0 s h
  constructor
  · intro k e he
    obtain ⟨_, h2, h3, _⟩ := hent k e he
    exact ⟨h2, h3⟩
  · intro k hk
    constructor
    · intro hg
      cases hmg : mapGet s.cache k with
      | none => rfl
      | some e => simp [TTLCache.get, hk, hmg] at hg
    · intro hmg
      simp [TTLCache.get, hk, hmg]

/-- Closed instance of `c10_stored_values` in the reachable state `sOne`. -/
theorem c10_stored_values_witness :
    Reachable natFalsy 10 sOne ∧
    natFalsy (1 : Nat) = false ∧ (10 : Nat) = 10 :=
  ⟨reachable_sOne,
    (c10_stored_values natFalsy 10 sOne reachable_sOne).1 "a" ⟨1, 10, 0⟩ (by rfl)⟩

/-- The store reached by `add "a" 1`; `remove "a"`; `add "a" 2`, all at
time 0 on a fresh cache with ttl 10: key `"a"` is present but carries TWO
pending scheduled removals, because `remove` does not cancel the first
timeout and the re-insertion schedules a second one. -/
def sTwice : TTLCache Nat :=
  { ttl := 10, cache := [("a", ⟨2, 10, 0⟩)],
    timers := [("a", 10), ("a", 10)], now := 0 }

theorem reachable_sTwice : Reachable natFalsy 10 sTwice := by
  have h1 : Step natFalsy (TTLCache.init 10) sOne :=
    Step.addOp _ _ "a" 1 true (by rfl)
  have h2 : Step natFalsy sOne
      { ttl := 10, cache := [], timers := [("a", 10)], now := 0 } :=
    Step.removeOp _ _ "a" true (by rfl)
  have h3 : Step natFalsy
      { ttl := 10, cache := [], timers := [("a", 10)], now := 0 } sTwice :=
    Step.addOp _ _ "a" 2 true (by rfl)
  exact Relation.ReflTransGen.tail
    (Relation.ReflTransGen.tail (Relation.ReflTransGen.single h1) h2) h3

/-- C2 fails as stated: `sTwice` is reachable, key `"a"` is present in its
entries, yet two (not exactly one) scheduled-removal actions for `"a"` are
pending. -/
theorem c2_counterexample :
    Reachable natFalsy 10 sTwice ∧
    mapHas sTwice.cache "a" = true ∧
    (sTwice.timers.filter (fun p => p.1 == "a")).length = 2 :=
  ⟨reachable_sTwice, by rfl, by rfl⟩

/-- C2 (amended): in every reachable state, each key present in the entries
map has AT LEAST one pending scheduled-removal action, namely one created
at the time the key's current entry was inserted whose fire time is
exactly that insertion time plus ttl — so (by the model's firing guard
`t ≤ now`) it fires no earlier than ttl after the insertion.  "Exactly
one" is false: after remove-and-re-insert within one ttl window a stale
second action is also pending. -/
theorem c2_amended_at_least_one_timer {T : Type} (falsy : T → Bool)
    (ttl0 : Nat) (s : TTLCache T) (h : Reachable falsy ttl0 s) (k : String)
    (e : CacheEntry T) (he : mapGet s.cache k = some e) :
    (k, e.insertedAt + ttl0) ∈ s.timers :=
  ((cacheInv_reachable falsy ttl0 s h).2 k e he).2.2.2

/-- Closed instance of `c2_amended_at_least_one_timer` at `sOne`. -/
theorem c2_amended_at_least_one_timer_witness :
    Reachable natFalsy 10 sOne ∧ ("a", 0 + 10) ∈ sOne.timers :=
  ⟨reachable_sOne,
    c2_amended_at_least_one_timer natFalsy 10 sOne reachable_sOne "a"
      ⟨1, 10, 0⟩ (by rfl)⟩

/-! ### The stale-timer execution (ttl 10, key "a") -/

/-- After `add "a" 1` at time 0. -/
def c8s1 : TTLCache Nat :=
  { ttl := 10, cache := [("a", ⟨1, 10, 0⟩)], timers := [("a", 10)], now := 0 }

/-- Time has advanced to 3. -/
def c8s2 : TTLCache Nat :=
  { ttl := 10, cache := [("a", ⟨1, 10, 0⟩)], timers := [("a", 10)], now := 3 }

/-- After the manual `remove "a"` at time 3: the timeout from the first
insertion is still pending. -/
def c8s3 : TTLCache Nat :=
  { ttl := 10, cache := [], timers := [("a", 10)], now := 3 }

/-- Time has advanced to 4. -/
def c8s4 : TTLCache Nat :=
  { ttl := 10, cache := [], timers := [("a", 10)], now := 4 }

/-- After the re-insertion `add "a" 2` at time 4: both the stale timeout
(fire time 10) and the fresh one (fire time 14) are pending. -/
def c8s5 : TTLCache Nat :=
  { ttl := 10, cache := [("a", ⟨2, 10, 4⟩)],
    timers := [("a", 10), ("a", 14)], now := 4 }

/-- Time has advanced to 10: the stale timeout may now fire. -/
def c8s6 : TTLCache Nat :=
  { ttl := 10, cache := [("a", ⟨2, 10, 4⟩)],
    timers := [("a", 10), ("a", 14)], now := 10 }

/-- After the stale timeout fired at time 10: the newer entry is gone
although only 6 < 10 time units have passed since its insertion. -/
def c8s7 : TTLCache Nat :=
  { ttl := 10, cache := [], timers := [("a", 14)], now := 10 }

/-- C8: an execution in which a key is inserted (time 0), manually removed
(time 3) and re-inserted (time 4), all inside the first insertion's ttl
window of 10: the first insertion's timeout `("a", 10)` — scheduled at
time 0 to fire at 0 + ttl — is still pending, fires at time 10, and
deletes the newer entry even though `10 < 4 + 10`, i.e. before ttl has
elapsed since the re-insertion.  The callback neither was cancelled nor
checks entry identity. -/
theorem c8_stale_timer_deletes_newer_entry :
    TTLCache.add natFalsy (TTLCache.init 10) "a" 1 = .ok (c8s1, true) ∧
    TTLCache.remove c8s2 "a" = .ok (c8s3, true) ∧
    TTLCache.add natFalsy c8s4 "a" 2 = .ok (c8s5, true) ∧
    ("a", 0 + 10) ∈ c8s6.timers ∧
    mapGet c8s6.cache "a" = some ⟨2, 10, 4⟩ ∧
    Step natFalsy c8s6 c8s7 ∧
    fireTimer c8s6 "a" 10 = c8s7 ∧
    c8s6.now < 4 + 10 ∧
    mapGet c8s7.cache "a" = none ∧
    Reachable natFalsy 10 c8s7 := by
  have h1 : Step natFalsy (TTLCache.init 10) c8s1 :=
    Step.addOp _ _ "a" 1 true (by rfl)
  have h2 : Step natFalsy c8s1 c8s2 := Step.advance c8s1 3
  have h3 : Step natFalsy c8s2 c8s3 := Step.removeOp _ _ "a" true (by rfl)
  have h4 : Step natFalsy c8s3 c8s4 := Step.advance c8s3 1
  have h5 : Step natFalsy c8s4 c8s5 := Step.addOp _ _ "a" 2 true (by rfl)
  have h6 : Step natFalsy c8s5 c8s6 := Step.advance c8s5 6
  have hfire : fireTimer c8s6 "a" 10 = c8s7 := by rfl
  have h7 : Step natFalsy c8s6 c8s7 :=
    hfire ▸ Step.fire c8s6 "a" 10 (by simp [c8s6]) (by simp [c8s6])
  refine ⟨by rfl, by rfl, by rfl, by simp [c8s6], by rfl, h7, hfire, by simp [c8s6],
    by rfl, ?_⟩
  exact Relation.ReflTransGen.tail
    (Relation.ReflTransGen.tail
      (Relation.ReflTransGen.tail
        (Relation.ReflTransGen.tail
          (Relation.ReflTransGen.tail
            (Relation.ReflTransGen.tail
              (Relation.ReflTransGen.single h1) h2) h3) h4) h5) h6) h7
